import Mathlib

/-!
Verification of the adaptive vocabulary-drill engine (`app.js`).

The JavaScript source is shallowly embedded: numbers are modelled by `ℚ`
(the source only performs exact arithmetic on the values the claims are
about), timestamps and counters by `ℕ`, and `Math.random()` by an explicit
stream `rand : ℕ → ℚ` indexed by the number of calls made so far.  Code
that can throw (dequeueing `undefined` and then dereferencing it, storage
access) returns `Option`.
-/

namespace App

/-- `TARGET_SETS` constant from the source. -/
def TARGET_SETS : Nat := 20

/-- `RECENT_PENALTY_HOURS` constant from the source (hours). -/
def RECENT_PENALTY_HOURS : ℚ := 24

/-- `NEW_ITEM_BONUS` constant from the source. -/
def NEW_ITEM_BONUS : ℚ := 3

/-- `ERROR_WEIGHT` constant from the source. -/
def ERROR_WEIGHT : ℚ := 4

/-- `RECENT_MIN_FACTOR` constant from the source (0.25). -/
def RECENT_MIN_FACTOR : ℚ := 1/4

/-- A vocabulary item (`vocab.json` entries).  Only the fields the engine
reads are modelled; purely presentational fields (`clues_de`, `lemma`) are
omitted. -/
structure Item where
  id : String
  article : String
  display : String
  tags : List String
deriving DecidableEq, Repr

/-- Per-item statistics record (`defaultStat` shape from the source). -/
structure Stat where
  seen : Nat
  correctMeaning : Nat
  wrongMeaning : Nat
  correctArticle : Nat
  wrongArticle : Nat
  lastSeenAt : Nat
deriving DecidableEq, Repr

/-- `defaultStat()` from the source: all counters zero, `lastSeenAt` is the
0 sentinel ("never seen"). -/
def defaultStat : Stat :=
  { seen := 0, correctMeaning := 0, wrongMeaning := 0,
    correctArticle := 0, wrongArticle := 0, lastSeenAt := 0 }

/-- The statistics store `state.stats` is modelled as a total function:
`ensureStat` in the source lazily inserts `defaultStat()` before every
read, so an absent id and a default record are indistinguishable. -/
def Stats : Type := String → Stat

/-- Point update of the statistics store (assignment to `state.stats[id]`). -/
def updateStat (stats : Stats) (itemId : String) (st : Stat) : Stats :=
  fun i => if i = itemId then st else stats i

/-- `errorRate(st)` from the source. -/
def errorRate (st : Stat) : ℚ :=
  let total := st.correctMeaning + st.wrongMeaning + st.correctArticle + st.wrongArticle
  let wrong := st.wrongMeaning + st.wrongArticle
  if total = 0 then 0 else (wrong : ℚ) / (total : ℚ)

/-- `(Date.now() - st.lastSeenAt) / (1000*60*60)` from `recencyFactor`. -/
def hoursSince (now : Nat) (st : Stat) : ℚ :=
  ((now : ℚ) - (st.lastSeenAt : ℚ)) / (1000*60*60)

/-- `recencyFactor(st)` from the source; `now` is `Date.now()` in ms.
`if(!st.lastSeenAt)` treats the 0 timestamp as "never seen". -/
def recencyFactor (now : Nat) (st : Stat) : ℚ :=
  if st.lastSeenAt = 0 then 1
  else if RECENT_PENALTY_HOURS ≤ hoursSince now st then 1
  else max RECENT_MIN_FACTOR (hoursSince now st / RECENT_PENALTY_HOURS)

/-- `itemWeight(item)` from the source.  The item is consulted only through
its statistics record (`ensureStat(item.id)`), so the embedding takes the
record directly. -/
def itemWeight (now : Nat) (st : Stat) : ℚ :=
  let newBonus := if st.seen = 0 then NEW_ITEM_BONUS else 1
  let errBoost := 1 + errorRate st * ERROR_WEIGHT
  let recent := recencyFactor now st
  newBonus * errBoost * recent

/-- `intersectTags(aTags, bTags)` from the source: true iff some tag of `b`
occurs in `a`. -/
def intersectTags (a b : List String) : Bool :=
  b.any (fun t => a.contains t)

/-- The destructuring swap `[a[i],a[j]] = [a[j],a[i]]` from `shuffle`.
With `Math.random() ∈ [0,1)` both indices are always in bounds; out of
bounds the model leaves the list unchanged. -/
def swapL {α : Type} (l : List α) (i j : Nat) : List α :=
  match l.get? i, l.get? j with
  | some x, some y => (l.set i y).set j x
  | _, _ => l

/-- Fisher-Yates loop of `shuffle` on the copied array; `i` counts down
from `length-1` to `1`, `rand i` models the `Math.random()` call of that
iteration. -/
def shuffleLoop {α : Type} (rand : Nat → ℚ) (a : List α) : Nat → List α
  | 0 => a
  | i+1 => shuffleLoop rand (swapL a (i+1) (⌊rand (i+1) * ((i : ℚ) + 2)⌋).toNat) i

/-- `shuffle(arr)` from the source. -/
def shuffle {α : Type} (rand : Nat → ℚ) (l : List α) : List α :=
  shuffleLoop rand l (l.length - 1)

theorem set_cons_perm {α : Type} :
    ∀ (t : List α) (k : Nat) (a y : α), t.get? k = some y →
      List.Perm (y :: t.set k a) (a :: t)
  | [], k, a, y, h => by simp [List.get?] at h
  | b :: t', 0, a, y, h => by
      simp [List.get?] at h; subst h
      simpa [List.set] using List.Perm.swap a b t'
  | b :: t', k+1, a, y, h => by
      have ih := set_cons_perm t' k a y h
      simp only [List.set]
      exact (List.Perm.swap b y _).trans ((List.Perm.cons b ih).trans (List.Perm.swap a b t'))

theorem double_set_perm {α : Type} :
    ∀ (l : List α) (i j : Nat) (x y : α), l.get? i = some x → l.get? j = some y →
      List.Perm ((l.set i y).set j x) l
  | [], _, _, x, y, hi, _ => by simp [List.get?] at hi
  | a :: t, 0, 0, x, y, hi, hj => by
      simp [List.get?] at hi hj; subst hi; subst hj
      simp [List.set]
  | a :: t, 0, j+1, x, y, hi, hj => by
      simp [List.get?] at hi; subst hi
      simp only [List.get?] at hj
      simpa [List.set] using set_cons_perm t j a y hj
  | a :: t, i+1, 0, x, y, hi, hj => by
      simp [List.get?] at hj; subst hj
      simp only [List.get?] at hi
      simpa [List.set] using set_cons_perm t i a x hi
  | a :: t, i+1, j+1, x, y, hi, hj => by
      simp only [List.get?] at hi hj
      simpa [List.set] using List.Perm.cons a (double_set_perm t i j x y hi hj)

theorem swapL_perm {α : Type} (l : List α) (i j : Nat) : List.Perm (swapL l i j) l := by
  unfold swapL
  cases hi : l.get? i with
  | none => exact List.Perm.refl l
  | some x =>
    cases hj : l.get? j with
    | none => exact List.Perm.refl l
    | some y => exact double_set_perm l i j x y hi hj

theorem shuffleLoop_perm {α : Type} (rand : Nat → ℚ) (n : Nat) :
    ∀ a : List α, List.Perm (shuffleLoop rand a n) a := by
  induction n with
  | zero => intro a; exact List.Perm.refl a
  | succ i ih =>
    intro a
    exact (ih _).trans (swapL_perm a (i+1) _)

theorem shuffle_perm {α : Type} (rand : Nat → ℚ) (l : List α) :
    List.Perm (shuffle rand l) l :=
  shuffleLoop_perm rand (l.length - 1) l

/-- Sum of the weights clamped to `≥ 0`
(`for(const w of weights) sum += Math.max(0, w)`). -/
def clampedSum (ws : List ℚ) : ℚ :=
  (ws.map (fun w => max 0 w)).sum

/-- The cumulative-weight walk of `pickWeightedUnique`
(`for(; idx<pool.length; idx++){ r -= Math.max(0,weights[idx]); if(r<=0) break; }`);
returns `ws.length` when the loop never breaks. -/
def walkIdx (r : ℚ) : List ℚ → Nat
  | [] => 0
  | w :: ws => if r - max 0 w ≤ 0 then 0 else walkIdx (r - max 0 w) ws + 1

/-- Loop body of `pickWeightedUnique`.  `calls` counts the `Math.random()`
calls made so far (the degenerate branch consumes no randomness), `fuel`
is the number of remaining draws (`k - i`). -/
def pickWeightedUniqueAux (rand : Nat → ℚ) (f : Item → ℚ) :
    Nat → Nat → List Item → List Item
  | _, 0, _ => []
  | _, _+1, [] => []
  | calls, fuel+1, p :: ps =>
    let pool := p :: ps
    let weights := pool.map f
    let sum := clampedSum weights
    if sum ≤ 0 then
      p :: pickWeightedUniqueAux rand f calls fuel ps
    else
      let r := rand calls * sum
      let j := min (walkIdx r weights) (pool.length - 1)
      pool.getD j p :: pickWeightedUniqueAux rand f (calls + 1) fuel (pool.eraseIdx j)

/-- `pickWeightedUnique(items, k, weightFn)` from the source.  `k` is an
arbitrary integer; the JS loop `for(let i=0; i<k && pool.length>0; i++)`
runs `max(k,0)` times unless the pool empties first. -/
def pickWeightedUnique (rand : Nat → ℚ) (items : List Item) (k : ℤ) (f : Item → ℚ) :
    List Item :=
  pickWeightedUniqueAux rand f 0 k.toNat items

theorem getD_cons_eraseIdx_perm {α : Type} :
    ∀ (l : List α) (j : Nat) (d : α), j < l.length →
      List.Perm (l.getD j d :: l.eraseIdx j) l
  | [], j, d, h => by simp at h
  | a :: t, 0, d, _ => by simp [List.getD, List.eraseIdx]
  | a :: t, j+1, d, h => by
      have ih := getD_cons_eraseIdx_perm t j d (by simpa using h)
      simp only [List.getD_cons_succ, List.eraseIdx_cons_succ]
      exact (List.Perm.swap a _ _).trans (List.Perm.cons a ih)

theorem pickWeightedUniqueAux_length (rand : Nat → ℚ) (f : Item → ℚ) :
    ∀ (fuel calls : Nat) (pool : List Item),
      (pickWeightedUniqueAux rand f calls fuel pool).length = min fuel pool.length := by
  intro fuel
  induction fuel with
  | zero => intro calls pool; simp [pickWeightedUniqueAux]
  | succ n ih =>
    intro calls pool
    cases pool with
    | nil => simp [pickWeightedUniqueAux]
    | cons p ps =>
      rw [pickWeightedUniqueAux]
      by_cases h : clampedSum ((p :: ps).map f) ≤ 0
      · simp only [if_pos h, List.length_cons, ih]
        omega
      · simp only [if_neg h, List.length_cons, ih]
        rw [List.length_eraseIdx]
        split <;> simp only [List.length_cons] at * <;> omega

theorem pickWeightedUniqueAux_mem (rand : Nat → ℚ) (f : Item → ℚ) :
    ∀ (fuel calls : Nat) (pool : List Item) (x : Item),
      x ∈ pickWeightedUniqueAux rand f calls fuel pool → x ∈ pool := by
  intro fuel
  induction fuel with
  | zero => intro calls pool x hx; simp [pickWeightedUniqueAux] at hx
  | succ n ih =>
    intro calls pool x hx
    cases pool with
    | nil => simp [pickWeightedUniqueAux] at hx
    | cons p ps =>
      rw [pickWeightedUniqueAux] at hx
      by_cases h : clampedSum ((p :: ps).map f) ≤ 0
      · rw [if_pos h] at hx
        rcases List.mem_cons.mp hx with h1 | h1
        · exact h1 ▸ List.mem_cons_self p ps
        · exact List.mem_cons_of_mem p (ih calls ps x h1)
      · rw [if_neg h] at hx
        have hj : min (walkIdx (rand calls * clampedSum ((p :: ps).map f))
            ((p :: ps).map f)) ((p :: ps).length - 1) < (p :: ps).length := by
          simp only [List.length_cons]; omega
        rcases List.mem_cons.mp hx with h1 | h1
        · subst h1
          exact (getD_cons_eraseIdx_perm (p :: ps) _ p hj).subset (List.mem_cons_self _ _)
        · exact ((p :: ps).eraseIdx_sublist _).subset (ih _ _ x h1)

/-- Keys of a JS `Map` built from `[key, value]` pairs, in insertion
order: first occurrence of each key. -/
def firstOccKeys : List String → List String
  | [] => []
  | x :: xs => x :: (firstOccKeys xs).filter (fun y => y ≠ x)

/-- The value a JS `Map` holds for key `i` after inserting all the pairs
`[d.id, d]`: the last entry with that id. -/
def lastWithId (l : List Item) (i : String) : Option Item :=
  l.reverse.find? (fun x => x.id == i)

/-- `Array.from(new Map(distractors.map(d => [d.id, d])).values())`:
per id in first-occurrence order, the last item carrying that id. -/
def jsMapValues (l : List Item) : List Item :=
  (firstOccKeys (l.map Item.id)).filterMap (lastWithId l)

/-- `sameTag` from `buildMeaningChoices`: catalog items other than `item`
sharing at least one tag with it. -/
def sameTagPool (pool : List Item) (item : Item) : List Item :=
  pool.filter (fun x => decide (x.id ≠ item.id) && intersectTags x.tags item.tags)

/-- `candidates` from `buildMeaningChoices`: the same-tag items, or— when
fewer than 10 exist — those concatenated with the whole catalog minus the
item (`sameTag.concat(pool.filter(x => x.id !== item.id))`). -/
def candidatesFor (pool : List Item) (item : Item) : List Item :=
  let sameTag := sameTagPool pool item
  if 10 ≤ sameTag.length then sameTag
  else sameTag ++ pool.filter (fun x => decide (x.id ≠ item.id))

/-- `pref` from `buildMeaningChoices`: candidates with a different article
when at least 2 exist, else all candidates. -/
def preferredFor (pool : List Item) (item : Item) : List Item :=
  let candidates := candidatesFor pool item
  let diffArticle := candidates.filter (fun x => decide (x.article ≠ item.article))
  if 2 ≤ diffArticle.length then diffArticle else candidates

/-- Distractor selection from `buildMeaningChoices`: shuffle the preferred
set, take 2, deduplicate by id, and top the count back up to 2 from the
rest of the catalog if needed.  `r1`/`r2` model the `Math.random()`
streams of the two `shuffle` calls. -/
def pickDistractors (r1 r2 : Nat → ℚ) (pool : List Item) (item : Item) : List Item :=
  let d0 := (shuffle r1 (preferredFor pool item)).take 2
  let d1 := (jsMapValues d0).take 2
  if d1.length < 2 then
    let rest := pool.filter (fun x =>
      decide (x.id ≠ item.id) && !(d1.any (fun d => d.id == x.id)))
    d1 ++ (shuffle r2 rest).take (2 - d1.length)
  else d1

/-- One answer button of the meaning phase. -/
structure Choice where
  id : String
  display : String
  isCorrect : Bool
deriving DecidableEq, Repr

/-- `buildMeaningChoices(item)` from the source: the correct item plus its
two distractors, shuffled, projected to presentation records. -/
def buildMeaningChoices (r1 r2 r3 : Nat → ℚ) (pool : List Item) (item : Item) :
    List Choice :=
  let distractors := pickDistractors r1 r2 pool item
  (shuffle r3 (item :: distractors)).map (fun x =>
    { id := x.id, display := x.display, isCorrect := x.id == item.id })

/-- JSON values, for modelling `JSON.parse` results in `loadStats`. -/
inductive JVal
  | null
  | jbool (b : Bool)
  | jnum (q : ℚ)
  | jstr (s : String)
  | jarr (l : List JVal)
  | jobj (l : List (String × JVal))
deriving Repr

/-- JS truthiness of a parsed JSON value. -/
def jsTruthy : JVal → Bool
  | .null => false
  | .jbool b => b
  | .jnum q => decide (q ≠ 0)
  | .jstr s => decide (s ≠ "")
  | .jarr _ => true
  | .jobj _ => true

/-- `typeof v === "object"` for a parsed JSON value (`null` and arrays
included, as in JS). -/
def jsTypeofObject : JVal → Bool
  | .null => true
  | .jarr _ => true
  | .jobj _ => true
  | _ => false

/-- `loadStats()` from the source.  `stored` is
`localStorage.getItem(STORAGE_KEY)` (`none` = key absent), `parse` models
`JSON.parse` (`none` = it threw, caught by the `try`).  `if(!raw)` also
catches the empty string. -/
def loadStats (stored : Option String) (parse : String → Option JVal) : JVal :=
  match stored with
  | none => JVal.jobj []
  | some raw =>
    if raw = "" then JVal.jobj []
    else
      match parse raw with
      | none => JVal.jobj []
      | some parsed =>
        if jsTruthy parsed && jsTypeofObject parsed then parsed else JVal.jobj []

/-- `saveStats()` from the source: `localStorage.setItem` wrapped in
`try {} catch {}`.  `fails` models the storage throwing; the stored value
is then left unchanged and no exception escapes. -/
def saveStats (fails : Bool) (store : Option String) (payload : String) :
    Option String :=
  if fails then store else some payload

/-- `recordSeen(itemId)` from the source; the second component is the list
of statistics snapshots passed to `saveStats()` by this call. -/
def recordSeen (stats : Stats) (itemId : String) (now : Nat) : Stats × List Stats :=
  let st := stats itemId
  let stats' := updateStat stats itemId { st with seen := st.seen + 1, lastSeenAt := now }
  (stats', [stats'])

/-- Quiz phase (`state.phase`). -/
inductive Phase
  | meaning
  | article
deriving DecidableEq, Repr

/-- `recordResult(itemId, phase, isCorrect)` from the source; the second
component is the list of snapshots passed to `saveStats()`. -/
def recordResult (stats : Stats) (itemId : String) (ph : Phase) (isCorrect : Bool) :
    Stats × List Stats :=
  let st := stats itemId
  let st' :=
    match ph, isCorrect with
    | .meaning, true => { st with correctMeaning := st.correctMeaning + 1 }
    | .meaning, false => { st with wrongMeaning := st.wrongMeaning + 1 }
    | .article, true => { st with correctArticle := st.correctArticle + 1 }
    | .article, false => { st with wrongArticle := st.wrongArticle + 1 }
  let stats' := updateStat stats itemId st'
  (stats', [stats'])

theorem pickWeightedUniqueAux_nodup (rand : Nat → ℚ) (f : Item → ℚ) :
    ∀ (fuel calls : Nat) (pool : List Item),
      (pool.map Item.id).Nodup →
      ((pickWeightedUniqueAux rand f calls fuel pool).map Item.id).Nodup := by
  intro fuel
  induction fuel with
  | zero => intro calls pool _; simp [pickWeightedUniqueAux]
  | succ n ih =>
    intro calls pool hpool
    cases pool with
    | nil => simp [pickWeightedUniqueAux]
    | cons p ps =>
      rw [pickWeightedUniqueAux]
      by_cases h : clampedSum ((p :: ps).map f) ≤ 0
      · rw [if_pos h]
        simp only [List.map_cons, List.nodup_cons] at hpool ⊢
        refine ⟨fun hmem => ?_, ih calls ps hpool.2⟩
        rcases List.mem_map.mp hmem with ⟨x, hx, hxid⟩
        exact hpool.1 (List.mem_map.mpr ⟨x, pickWeightedUniqueAux_mem rand f n calls ps x hx, hxid⟩)
      · rw [if_neg h]
        have hj : min (walkIdx (rand calls * clampedSum ((p :: ps).map f))
            ((p :: ps).map f)) ((p :: ps).length - 1) < (p :: ps).length := by
          simp only [List.length_cons]; omega
        have hperm := (getD_cons_eraseIdx_perm (p :: ps) _ p hj).map Item.id
        have hnodup : (((p :: ps).getD _ p :: (p :: ps).eraseIdx _).map Item.id).Nodup :=
          (hperm.nodup_iff).mpr hpool
        simp only [List.map_cons, List.nodup_cons] at hnodup ⊢
        refine ⟨fun hmem => ?_, ih _ _ hnodup.2⟩
        rcases List.mem_map.mp hmem with ⟨x, hx, hxid⟩
        exact hnodup.1 (List.mem_map.mpr
          ⟨x, pickWeightedUniqueAux_mem rand f n _ _ x hx, hxid⟩)

/-- The mutable application state (`state` in the source), restricted to
the fields the scheduler reads or writes.  UI-only fields
(`meaningChoices`, `currentClue`, `lock`) are omitted; `awaitNext` mirrors
the DOM gating (answer buttons disabled / `btnNext` enabled) that forces
an explicit "continue" click, and `finished` mirrors the terminal
"Runde beendet" rendering with `btnNext` disabled. -/
structure AppState where
  stats : Stats
  target : Nat
  done : Nat
  score : ℤ
  streak : Nat
  phase : Phase
  queue : List Item
  current : Option Item
  awaitNext : Bool
  finished : Bool

/-- `queue.splice(insertAt, 0, item)`. -/
def spliceInsert {α : Type} (q : List α) (i : Nat) (x : α) : List α :=
  q.take i ++ x :: q.drop i

/-- The insertion offset `Math.max(2, Math.min(6, 6 - Math.floor(wrong / 2)))`
computed by `requeueCurrentAdaptive` from an item's cumulative wrong
count. -/
def requeueOffset (st : Stat) : ℤ :=
  max 2 (min 6 (6 - ((st.wrongMeaning + st.wrongArticle : ℕ) : ℤ) / 2))

/-- `requeueCurrentAdaptive()` from the source: splice the current item
back into the queue at `min(queue.length, afterN)`. -/
def requeueCurrentAdaptive (s : AppState) : AppState :=
  match s.current with
  | none => s
  | some item =>
    let st := s.stats item.id
    let insertAt := min s.queue.length (requeueOffset st).toNat
    { s with queue := spliceInsert s.queue insertAt item }

/-- `onMeaningAnswer(choice)` from the source; `correct` is
`choice.isCorrect`.  `none` models the `state.current.id` dereference
throwing when no item is current. -/
def onMeaningAnswer (s : AppState) (correct : Bool) : Option AppState :=
  match s.current with
  | none => none
  | some item =>
    let stats' := (recordResult s.stats item.id Phase.meaning correct).1
    if correct then
      some { s with stats := stats', score := s.score + 2, streak := s.streak + 1,
                    phase := Phase.article }
    else
      some (requeueCurrentAdaptive
        { s with stats := stats', score := max 0 (s.score - 1), streak := 0,
                 awaitNext := true })

/-- `onArticleAnswer(article)` from the source.  The flag
`correct = (article === state.current.article)` is inlined: each branch
passes its literal value to `recordResult`. -/
def onArticleAnswer (s : AppState) (article : String) : Option AppState :=
  match s.current with
  | none => none
  | some item =>
    if article = item.article then
      some { s with stats := (recordResult s.stats item.id Phase.article true).1,
                    score := s.score + 2, streak := s.streak + 1,
                    done := s.done + 1, awaitNext := true }
    else
      some (requeueCurrentAdaptive
        { s with stats := (recordResult s.stats item.id Phase.article false).1,
                 score := max 0 (s.score - 1), streak := 0, awaitNext := true })

/-- `nextItem()` from the source.  When `done >= target` the round is
rendered complete (`finished`); otherwise the front of the queue is
dequeued and marked seen.  `none` models the crash when the queue is
empty: `state.queue.shift()` yields `undefined` and
`recordSeen(state.current.id)` throws. -/
def nextItem (now : Nat) (s : AppState) : Option AppState :=
  if s.target ≤ s.done then
    some { s with finished := true, awaitNext := true }
  else
    match s.queue with
    | [] => none
    | item :: rest =>
      let stats' := (recordSeen s.stats item.id now).1
      some { s with phase := Phase.meaning, current := some item, queue := rest,
                    stats := stats', awaitNext := false }

/-- `buildRoundQueue()` from the source.  The `ensureStat` warm-up loop is
the identity in the total-function model of the store.  `randPick` models
the `Math.random()` stream of `pickWeightedUnique`, `randShuffle` the one
of the fallback `shuffle`. -/
def buildRoundQueue (randPick randShuffle : Nat → ℚ) (now : Nat)
    (vocab : List Item) (stats : Stats) : List Item :=
  let picked := pickWeightedUnique randPick vocab (TARGET_SETS : ℤ)
    (fun it => itemWeight now (stats it.id))
  if picked.isEmpty then (shuffle randShuffle vocab).take TARGET_SETS else picked

/-- `startRound()` from the source: reset counters, build the queue, draw
the first item. -/
def startRound (randPick randShuffle : Nat → ℚ) (now : Nat)
    (vocab : List Item) (stats : Stats) : Option AppState :=
  nextItem now
    { stats := stats, target := TARGET_SETS, done := 0, score := 0, streak := 0,
      phase := Phase.meaning,
      queue := buildRoundQueue randPick randShuffle now vocab stats,
      current := none, awaitNext := false, finished := false }

/-- Concrete fixture: a vocabulary item. -/
def wordHaus : Item :=
  { id := "haus", article := "das", display := "das Haus", tags := ["wohnen"] }

/-- Concrete fixture: a second vocabulary item. -/
def wordBaum : Item :=
  { id := "baum", article := "der", display := "der Baum", tags := ["natur"] }

/-- Concrete fixture: a third vocabulary item. -/
def wordTuer : Item :=
  { id := "tuer", article := "die", display := "die Tuer", tags := ["wohnen"] }

/-- Concrete fixture: a fresh statistics store. -/
def statsEmpty : Stats := fun _ => defaultStat

/-- Concrete fixture: one meaning answer, correct. -/
def statRightOne : Stat := { defaultStat with seen := 1, correctMeaning := 1 }

/-- Concrete fixture: one meaning answer, wrong. -/
def statWrongOne : Stat := { defaultStat with seen := 1, wrongMeaning := 1 }

/-- Concrete fixture: a random stream that always returns 0. -/
def zeroRand : Nat → ℚ := fun _ => 0

/-- Concrete fixture: a mid-round state with `wordHaus` current. -/
def sampleState : AppState :=
  { stats := statsEmpty, target := TARGET_SETS, done := 0, score := 0, streak := 0,
    phase := Phase.meaning, queue := [wordBaum], current := some wordHaus,
    awaitNext := false, finished := false }

/-- Concrete fixture: the same state awaiting the article phase. -/
def articleState : AppState := { sampleState with phase := Phase.article }

/-- User events the DOM can deliver to the scheduler. -/
inductive Ev
  | answerMeaning (correct : Bool)
  | answerArticle (article : String)
  | next
deriving DecidableEq, Repr

/-- One accepted user interaction.  The side conditions record when the
DOM actually exposes the event: answer buttons exist only for the active
phase while no feedback is pending (`awaitNext = false`), `btnNext` is
enabled only while feedback is pending, and nothing is clickable after
the round-complete rendering. -/
inductive Step (now : Nat) : AppState → Ev → AppState → Prop
  | answerMeaning {s s' : AppState} {c : Bool}
      (hph : s.phase = Phase.meaning) (hwait : s.awaitNext = false)
      (hfin : s.finished = false) (hrun : onMeaningAnswer s c = some s') :
      Step now s (Ev.answerMeaning c) s'
  | answerArticle {s s' : AppState} {a : String}
      (hph : s.phase = Phase.article) (hwait : s.awaitNext = false)
      (hfin : s.finished = false) (hrun : onArticleAnswer s a = some s') :
      Step now s (Ev.answerArticle a) s'
  | next {s s' : AppState}
      (hwait : s.awaitNext = true) (hfin : s.finished = false)
      (hrun : nextItem now s = some s') :
      Step now s Ev.next s'

theorem errorRate_nonneg (st : Stat) : 0 ≤ errorRate st := by
  show 0 ≤ (if st.correctMeaning + st.wrongMeaning + st.correctArticle + st.wrongArticle = 0
    then (0 : ℚ)
    else ((st.wrongMeaning + st.wrongArticle : ℕ) : ℚ) /
      ((st.correctMeaning + st.wrongMeaning + st.correctArticle + st.wrongArticle : ℕ) : ℚ))
  split
  · exact le_refl 0
  · positivity

theorem recencyFactor_ge_min (now : Nat) (st : Stat) :
    RECENT_MIN_FACTOR ≤ recencyFactor now st := by
  unfold recencyFactor
  split
  · norm_num [RECENT_MIN_FACTOR]
  · split
    · norm_num [RECENT_MIN_FACTOR]
    · exact le_max_left _ _

theorem recencyFactor_nonneg (now : Nat) (st : Stat) : 0 ≤ recencyFactor now st :=
  le_trans (by norm_num [RECENT_MIN_FACTOR]) (recencyFactor_ge_min now st)

theorem newBonus_errBoost_nonneg (st : Stat) :
    0 ≤ (if st.seen = 0 then NEW_ITEM_BONUS else 1) * (1 + errorRate st * ERROR_WEIGHT) := by
  apply mul_nonneg
  · split <;> norm_num [NEW_ITEM_BONUS]
  · have := errorRate_nonneg st
    have : 0 ≤ errorRate st * ERROR_WEIGHT := by
      apply mul_nonneg (errorRate_nonneg st); norm_num [ERROR_WEIGHT]
    linarith

theorem itemWeight_nonneg (now : Nat) (st : Stat) : 0 ≤ itemWeight now st :=
  mul_nonneg (newBonus_errBoost_nonneg st) (recencyFactor_nonneg now st)

theorem requeueCurrentAdaptive_fields (s : AppState) :
    (requeueCurrentAdaptive s).done = s.done ∧
    (requeueCurrentAdaptive s).score = s.score ∧
    (requeueCurrentAdaptive s).phase = s.phase ∧
    (requeueCurrentAdaptive s).current = s.current ∧
    (requeueCurrentAdaptive s).stats = s.stats ∧
    (requeueCurrentAdaptive s).awaitNext = s.awaitNext ∧
    (requeueCurrentAdaptive s).finished = s.finished := by
  unfold requeueCurrentAdaptive
  cases h : s.current with
  | none => exact ⟨rfl, rfl, rfl, h, rfl, rfl, rfl⟩
  | some item => exact ⟨rfl, rfl, rfl, rfl, rfl, rfl, rfl⟩

theorem requeueCurrentAdaptive_queue (s : AppState) (item : Item)
    (h : s.current = some item) :
    (requeueCurrentAdaptive s).queue =
      spliceInsert s.queue (min s.queue.length (requeueOffset (s.stats item.id)).toNat)
        item := by
  unfold requeueCurrentAdaptive
  rw [h]

/-- C2: after an incorrect answer the requeue offset is
`clamp(6 - floor(wrong/2), 2, 6)` over the item's cumulative wrong count:
an integer in `[2,6]`, non-increasing in the wrong count (`0 ↦ 6`,
`4 ↦ 4`, `10 ↦ 2`), and the item is spliced back at
`min(offset, queue length)`, never past the queue end. -/
theorem requeue_policy_spec :
    (∀ st : Stat, requeueOffset st =
      max 2 (min 6 (6 - ((st.wrongMeaning + st.wrongArticle : ℕ) : ℤ) / 2)))
  ∧ (∀ st : Stat, 2 ≤ requeueOffset st ∧ requeueOffset st ≤ 6)
  ∧ (∀ st st' : Stat,
      st.wrongMeaning + st.wrongArticle ≤ st'.wrongMeaning + st'.wrongArticle →
      requeueOffset st' ≤ requeueOffset st)
  ∧ requeueOffset { defaultStat with wrongMeaning := 0 } = 6
  ∧ requeueOffset { defaultStat with wrongMeaning := 4 } = 4
  ∧ requeueOffset { defaultStat with wrongMeaning := 10 } = 2
  ∧ (∀ (s : AppState) (item : Item), s.current = some item →
      (requeueCurrentAdaptive s).queue =
        spliceInsert s.queue
          (min s.queue.length (requeueOffset (s.stats item.id)).toNat) item
      ∧ min s.queue.length (requeueOffset (s.stats item.id)).toNat ≤ s.queue.length) := by
  refine ⟨fun st => rfl, fun st => ?_, fun st st' h => ?_, by decide, by decide, by decide,
    fun s item h => ⟨requeueCurrentAdaptive_queue s item h, Nat.min_le_left _ _⟩⟩
  · unfold requeueOffset
    omega
  · unfold requeueOffset
    omega

/-- C2 witness: the bounds, monotonicity and splice position at concrete
inputs. -/
theorem requeue_policy_spec_witness :
    ((4 : Nat) + 0 ≤ 10 + 0
      ∧ requeueOffset { defaultStat with wrongMeaning := 10 } ≤
          requeueOffset { defaultStat with wrongMeaning := 4 })
  ∧ (sampleState.current = some wordHaus
      ∧ (requeueCurrentAdaptive sampleState).queue =
          spliceInsert sampleState.queue
            (min sampleState.queue.length
              (requeueOffset (sampleState.stats wordHaus.id)).toNat) wordHaus) :=
  ⟨⟨by decide, requeue_policy_spec.2.2.1 _ _ (by decide)⟩,
   ⟨rfl, (requeue_policy_spec.2.2.2.2.2.2 sampleState wordHaus rfl).1⟩⟩

/-- C4: the weight is the product `newBonus × errorBoost × recencyFactor`
with `errorRate` as specified, it is non-negative, and with equal
`seenCount > 0` and equal `lastSeenAt` a higher error rate gives a weight
at least as large. -/
theorem item_weight_spec :
    (∀ (now : Nat) (st : Stat), itemWeight now st =
      (if st.seen = 0 then NEW_ITEM_BONUS else 1) * (1 + errorRate st * ERROR_WEIGHT) *
        recencyFactor now st)
  ∧ (∀ st : Stat, errorRate st =
      if st.correctMeaning + st.wrongMeaning + st.correctArticle + st.wrongArticle = 0
      then 0
      else ((st.wrongMeaning + st.wrongArticle : ℕ) : ℚ) /
        ((st.correctMeaning + st.wrongMeaning + st.correctArticle + st.wrongArticle : ℕ) : ℚ))
  ∧ (∀ (now : Nat) (st : Stat), 0 ≤ itemWeight now st)
  ∧ (∀ (now : Nat) (st st' : Stat), st.seen = st'.seen → st.seen ≠ 0 →
      st.lastSeenAt = st'.lastSeenAt → errorRate st ≤ errorRate st' →
      itemWeight now st ≤ itemWeight now st') := by
  refine ⟨fun now st => rfl, fun st => rfl, itemWeight_nonneg, ?_⟩
  intro now st st' hseen hne hlast her
  have hrec : recencyFactor now st = recencyFactor now st' := by
    unfold recencyFactor hoursSince
    rw [hlast]
  unfold itemWeight
  rw [hrec, if_neg hne, if_neg (fun h => hne (hseen ▸ h))]
  apply mul_le_mul_of_nonneg_right _ (recencyFactor_nonneg now st')
  have : errorRate st * ERROR_WEIGHT ≤ errorRate st' * ERROR_WEIGHT := by
    apply mul_le_mul_of_nonneg_right her
    norm_num [ERROR_WEIGHT]
  linarith

theorem recencyFactor_le_one (now : Nat) (st : Stat) : recencyFactor now st ≤ 1 := by
  unfold recencyFactor
  split_ifs with h1 h2
  · exact le_refl 1
  · exact le_refl 1
  · apply max_le
    · norm_num [RECENT_MIN_FACTOR]
    · rw [div_le_one (by norm_num [RECENT_PENALTY_HOURS] : (0:ℚ) < RECENT_PENALTY_HOURS)]
      exact le_of_lt (not_le.mp h2)

/-- Modelled from the spec's words ("linearly interpolates from
RECENT_MIN_FACTOR (just seen) up to 1.0 (at the window boundary)"), for
comparison with the source's `recencyFactor`. -/
def recencyFactorLinearSpec (now : Nat) (st : Stat) : ℚ :=
  if st.lastSeenAt = 0 then 1
  else if RECENT_PENALTY_HOURS ≤ hoursSince now st then 1
  else RECENT_MIN_FACTOR +
    (1 - RECENT_MIN_FACTOR) * (hoursSince now st / RECENT_PENALTY_HOURS)

/-- Concrete fixture: a record last seen at timestamp 1 ms. -/
def stRecent : Stat := { defaultStat with lastSeenAt := 1 }

/-- C3 counterexample: 12 hours after being seen (half the 24-hour
window) the source computes `max(0.25, 12/24) = 1/2`, not the linear
interpolation `0.25 + 0.75 * (12/24) = 5/8` between RECENT_MIN_FACTOR and
1.0 that the claim describes. -/
theorem recency_linear_counterexample :
    recencyFactor 43200001 stRecent = 1/2
  ∧ recencyFactorLinearSpec 43200001 stRecent = 5/8
  ∧ recencyFactor 43200001 stRecent ≠ recencyFactorLinearSpec 43200001 stRecent := by
  have hh : hoursSince 43200001 stRecent = 12 := by
    norm_num [hoursSince, stRecent, defaultStat]
  have h1 : recencyFactor 43200001 stRecent = 1/2 := by
    rw [recencyFactor, if_neg (by norm_num [stRecent, defaultStat]), hh,
      if_neg (by norm_num [RECENT_PENALTY_HOURS]),
      max_eq_right (by norm_num [RECENT_MIN_FACTOR, RECENT_PENALTY_HOURS])]
    norm_num [RECENT_PENALTY_HOURS]
  have h2 : recencyFactorLinearSpec 43200001 stRecent = 5/8 := by
    rw [recencyFactorLinearSpec, if_neg (by norm_num [stRecent, defaultStat]), hh,
      if_neg (by norm_num [RECENT_PENALTY_HOURS])]
    norm_num [RECENT_MIN_FACTOR, RECENT_PENALTY_HOURS]
  refine ⟨h1, h2, ?_⟩
  rw [h1, h2]
  norm_num

/-- C3 (amended): the factor is 1.0 when `lastSeenAt` is unset or the age
reaches the window; inside the window it is
`max(RECENT_MIN_FACTOR, age/window)` — RECENT_MIN_FACTOR when just seen,
rising piecewise-linearly to 1.0 at the boundary — always at least
RECENT_MIN_FACTOR and never 0, so a just-seen item weighs no more than an
otherwise-identical never-seen one. -/
theorem recency_factor_spec :
    (∀ (now : Nat) (st : Stat), st.lastSeenAt = 0 → recencyFactor now st = 1)
  ∧ (∀ (now : Nat) (st : Stat), st.lastSeenAt ≠ 0 →
      RECENT_PENALTY_HOURS ≤ hoursSince now st → recencyFactor now st = 1)
  ∧ (∀ (now : Nat) (st : Stat), st.lastSeenAt ≠ 0 →
      hoursSince now st < RECENT_PENALTY_HOURS →
      recencyFactor now st =
        max RECENT_MIN_FACTOR (hoursSince now st / RECENT_PENALTY_HOURS))
  ∧ (∀ (now : Nat) (st : Stat), st.lastSeenAt = now → now ≠ 0 →
      recencyFactor now st = RECENT_MIN_FACTOR)
  ∧ (∀ (st : Stat) (now now' : Nat), now ≤ now' →
      recencyFactor now st ≤ recencyFactor now' st)
  ∧ (∀ (now : Nat) (st : Stat),
      RECENT_MIN_FACTOR ≤ recencyFactor now st ∧ 0 < recencyFactor now st)
  ∧ (∀ (now : Nat) (st : Stat), now ≠ 0 →
      itemWeight now { st with lastSeenAt := now } ≤
        itemWeight now { st with lastSeenAt := 0 }) := by
  refine ⟨?_, ?_, ?_, ?_, ?_, ?_, ?_⟩
  · intro now st h
    rw [recencyFactor, if_pos h]
  · intro now st h h24
    rw [recencyFactor, if_neg h, if_pos h24]
  · intro now st h h24
    rw [recencyFactor, if_neg h, if_neg (not_le.mpr h24)]
  · intro now st hlast hnow
    have h0 : hoursSince now st = 0 := by
      rw [hoursSince, hlast]
      simp
    rw [recencyFactor, if_neg (by rw [hlast]; exact hnow), h0,
      if_neg (by norm_num [RECENT_PENALTY_HOURS])]
    rw [show (0:ℚ) / RECENT_PENALTY_HOURS = 0 by norm_num]
    exact max_eq_left (by norm_num [RECENT_MIN_FACTOR])
  · intro st now now' hnn
    unfold recencyFactor
    by_cases h0 : st.lastSeenAt = 0
    · rw [if_pos h0, if_pos h0]
    · rw [if_neg h0, if_neg h0]
      have hmono : hoursSince now st ≤ hoursSince now' st := by
        unfold hoursSince
        have hc : (now : ℚ) ≤ (now' : ℚ) := by exact_mod_cast hnn
        exact (div_le_div_right (by norm_num)).mpr (by linarith)
      by_cases h24 : RECENT_PENALTY_HOURS ≤ hoursSince now st
      · rw [if_pos h24, if_pos (le_trans h24 hmono)]
      · rw [if_neg h24]
        by_cases h24' : RECENT_PENALTY_HOURS ≤ hoursSince now' st
        · rw [if_pos h24']
          apply max_le
          · norm_num [RECENT_MIN_FACTOR]
          · rw [div_le_one (by norm_num [RECENT_PENALTY_HOURS] : (0:ℚ) < RECENT_PENALTY_HOURS)]
            exact le_of_lt (not_le.mp h24)
        · rw [if_neg h24']
          exact max_le_max (le_refl _)
            ((div_le_div_right (by norm_num [RECENT_PENALTY_HOURS])).mpr hmono)
  · intro now st
    refine ⟨recencyFactor_ge_min now st, ?_⟩
    exact lt_of_lt_of_le (by norm_num [RECENT_MIN_FACTOR]) (recencyFactor_ge_min now st)
  · intro now st hnow
    have hle : recencyFactor now { st with lastSeenAt := now } ≤
        recencyFactor now { st with lastSeenAt := 0 } := by
      rw [show recencyFactor now { st with lastSeenAt := 0 } = 1 from by
        rw [recencyFactor]; exact if_pos rfl]
      exact recencyFactor_le_one _ _
    exact mul_le_mul_of_nonneg_left hle
      (newBonus_errBoost_nonneg { st with lastSeenAt := now })

/-- C3 witness: the unset-sentinel and just-seen cases at concrete
inputs. -/
theorem recency_factor_spec_witness :
    (defaultStat.lastSeenAt = 0 ∧ recencyFactor 5 defaultStat = 1)
  ∧ (stRecent.lastSeenAt = 1 ∧ (1:Nat) ≠ 0 ∧
      recencyFactor 1 stRecent = RECENT_MIN_FACTOR) :=
  ⟨⟨rfl, recency_factor_spec.1 5 defaultStat rfl⟩,
   ⟨rfl, by decide, recency_factor_spec.2.2.2.1 1 stRecent rfl (by decide)⟩⟩

/-- C4 witness: monotonicity at two concrete statistics records. -/
theorem item_weight_spec_witness :
    ((statWrongOne.seen = statRightOne.seen ∧ statWrongOne.seen ≠ 0 ∧
      statWrongOne.lastSeenAt = statRightOne.lastSeenAt ∧
      errorRate statRightOne ≤ errorRate statWrongOne)
    ∧ itemWeight 0 statRightOne ≤ itemWeight 0 statWrongOne) :=
  ⟨⟨rfl, by decide, rfl,
    by norm_num [errorRate, statRightOne, statWrongOne, defaultStat]⟩,
   item_weight_spec.2.2.2 0 statRightOne statWrongOne rfl (by decide) rfl
     (by norm_num [errorRate, statRightOne, statWrongOne, defaultStat])⟩

theorem pickWeightedUniqueAux_nil (rand : Nat → ℚ) (f : Item → ℚ)
    (calls fuel : Nat) : pickWeightedUniqueAux rand f calls fuel [] = [] := by
  cases fuel <;> rfl

/-- C1: for any pool with pairwise-distinct ids, any integer `k` and any
weight function, the sampler returns exactly `min(max(k,0), |pool|)`
items, pairwise-distinct by id, all drawn from the pool; an empty pool or
`k ≤ 0` gives an empty result. -/
theorem sampler_spec (rand : Nat → ℚ) (items : List Item) (k : ℤ) (f : Item → ℚ)
    (hids : (items.map Item.id).Nodup) :
    ((pickWeightedUnique rand items k f).length : ℤ) = min (max k 0) (items.length : ℤ)
  ∧ ((pickWeightedUnique rand items k f).map Item.id).Nodup
  ∧ (∀ x, x ∈ pickWeightedUnique rand items k f → x ∈ items)
  ∧ (items = [] → pickWeightedUnique rand items k f = [])
  ∧ (k ≤ 0 → pickWeightedUnique rand items k f = []) := by
  have hlen : (pickWeightedUnique rand items k f).length = min k.toNat items.length :=
    pickWeightedUniqueAux_length rand f k.toNat 0 items
  refine ⟨?_, pickWeightedUniqueAux_nodup rand f _ _ _ hids,
    fun x hx => pickWeightedUniqueAux_mem rand f _ _ _ x hx, ?_, ?_⟩
  · rw [hlen]
    omega
  · intro h
    subst h
    exact pickWeightedUniqueAux_nil rand f 0 k.toNat
  · intro hk
    have h0 : (pickWeightedUnique rand items k f).length = 0 := by
      rw [hlen]; omega
    exact List.eq_nil_of_length_eq_zero h0

/-- C1 witness: a two-item pool with `k = 5` yields both items. -/
theorem sampler_spec_witness :
    ([wordHaus, wordBaum].map Item.id).Nodup
  ∧ ((pickWeightedUnique zeroRand [wordHaus, wordBaum] 5 (fun _ => 1)).length : ℤ) =
      min (max 5 0) (([wordHaus, wordBaum].length : ℕ) : ℤ) :=
  ⟨by decide, (sampler_spec zeroRand [wordHaus, wordBaum] 5 (fun _ => 1) (by decide)).1⟩

/-- C7: in every draw step whose clamped weight sum is not positive, the
sampler deterministically moves the first remaining candidate to the
result (no randomness is consumed and no error is raised); in particular
the first draw of such a pool yields its front element. -/
theorem degenerate_draw_spec (rand : Nat → ℚ) (f : Item → ℚ) (p : Item) (ps : List Item)
    (hsum : clampedSum ((p :: ps).map f) ≤ 0) :
    (∀ calls fuel, pickWeightedUniqueAux rand f calls (fuel+1) (p :: ps) =
      p :: pickWeightedUniqueAux rand f calls fuel ps)
  ∧ (∀ k : ℤ, 1 ≤ k →
      pickWeightedUnique rand (p :: ps) k f =
        p :: pickWeightedUniqueAux rand f 0 (k.toNat - 1) ps
      ∧ (pickWeightedUnique rand (p :: ps) k f).head? = some p) := by
  have hstep : ∀ calls fuel, pickWeightedUniqueAux rand f calls (fuel+1) (p :: ps) =
      p :: pickWeightedUniqueAux rand f calls fuel ps := by
    intro calls fuel
    rw [pickWeightedUniqueAux, if_pos hsum]
  refine ⟨hstep, ?_⟩
  intro k hk
  obtain ⟨n, hn⟩ : ∃ n, k.toNat = n + 1 := ⟨k.toNat - 1, by omega⟩
  have heq : pickWeightedUnique rand (p :: ps) k f =
      p :: pickWeightedUniqueAux rand f 0 n ps := by
    unfold pickWeightedUnique
    rw [hn, hstep 0 n]
  rw [heq, hn]
  exact ⟨by rw [Nat.add_sub_cancel], rfl⟩

/-- C7 witness: a singleton pool whose only weight is 0 falls back to the
front candidate. -/
theorem degenerate_draw_spec_witness :
    clampedSum (([wordHaus] : List Item).map (fun _ => (0:ℚ))) ≤ 0
  ∧ (1 : ℤ) ≤ 2
  ∧ (pickWeightedUnique zeroRand [wordHaus] 2 (fun _ => 0)).head? = some wordHaus :=
  ⟨by norm_num [clampedSum], by decide,
   ((degenerate_draw_spec zeroRand (fun _ => 0) wordHaus []
     (by norm_num [clampedSum])).2 2 (by decide)).2⟩

/-- C9: loading returns the empty mapping on a missing value, on malformed
JSON, and on a non-object value, never propagating an exception; a failing
save leaves the store untouched; and every statistics mutation
(`recordSeen`, `recordResult`) issues exactly one save of the mutated
mapping. -/
theorem stats_persistence_spec :
    (∀ parse, loadStats none parse = JVal.jobj [])
  ∧ (∀ parse, loadStats (some "") parse = JVal.jobj [])
  ∧ (∀ parse raw, parse raw = none → loadStats (some raw) parse = JVal.jobj [])
  ∧ (∀ parse raw v, parse raw = some v →
      (jsTruthy v && jsTypeofObject v) = false →
      loadStats (some raw) parse = JVal.jobj [])
  ∧ (∀ store payload, saveStats true store payload = store)
  ∧ (∀ (stats : Stats) itemId now,
      (recordSeen stats itemId now).2 = [(recordSeen stats itemId now).1])
  ∧ (∀ (stats : Stats) itemId ph c,
      (recordResult stats itemId ph c).2 = [(recordResult stats itemId ph c).1]) := by
  refine ⟨fun parse => rfl, fun parse => rfl, ?_, ?_, fun store payload => rfl,
    fun stats itemId now => rfl, fun stats itemId ph c => rfl⟩
  · intro parse raw hp
    show (if raw = "" then JVal.jobj [] else
      match parse raw with
      | none => JVal.jobj []
      | some parsed =>
        if (jsTruthy parsed && jsTypeofObject parsed) = true then parsed
        else JVal.jobj []) = JVal.jobj []
    by_cases hraw : raw = ""
    · rw [if_pos hraw]
    · rw [if_neg hraw, hp]
  · intro parse raw v hp hv
    show (if raw = "" then JVal.jobj [] else
      match parse raw with
      | none => JVal.jobj []
      | some parsed =>
        if (jsTruthy parsed && jsTypeofObject parsed) = true then parsed
        else JVal.jobj []) = JVal.jobj []
    by_cases hraw : raw = ""
    · rw [if_pos hraw]
    · rw [if_neg hraw, hp]
      exact if_neg (by rw [hv]; exact Bool.false_ne_true)

/-- C9 witness: malformed JSON and a non-object value both load as the
empty mapping. -/
theorem stats_persistence_spec_witness :
    ((fun _ => (none : Option JVal)) "x" = none
      ∧ loadStats (some "x") (fun _ => none) = JVal.jobj [])
  ∧ ((fun _ => some (JVal.jnum 7)) "7" = some (JVal.jnum 7)
      ∧ (jsTruthy (JVal.jnum 7) && jsTypeofObject (JVal.jnum 7)) = false
      ∧ loadStats (some "7") (fun _ => some (JVal.jnum 7)) = JVal.jobj []) :=
  ⟨⟨rfl, stats_persistence_spec.2.2.1 (fun _ => none) "x" rfl⟩,
   ⟨rfl, by norm_num [jsTruthy, jsTypeofObject],
    stats_persistence_spec.2.2.2.1 (fun _ => some (JVal.jnum 7)) "7" (JVal.jnum 7) rfl
      (by norm_num [jsTruthy, jsTypeofObject])⟩⟩

theorem onMeaningAnswer_cases {s s' : AppState} {c : Bool}
    (h : onMeaningAnswer s c = some s') :
    ∃ item, s.current = some item ∧
      ((c = true ∧ s' = { s with
          stats := (recordResult s.stats item.id Phase.meaning true).1,
          score := s.score + 2, streak := s.streak + 1, phase := Phase.article })
       ∨ (c = false ∧ s' = requeueCurrentAdaptive { s with
          stats := (recordResult s.stats item.id Phase.meaning false).1,
          score := max 0 (s.score - 1), streak := 0, awaitNext := true })) := by
  unfold onMeaningAnswer at h
  cases hcur : s.current with
  | none =>
    rw [hcur] at h
    exact Option.noConfusion h
  | some item =>
    rw [hcur] at h
    refine ⟨item, rfl, ?_⟩
    cases c with
    | true => exact Or.inl ⟨rfl, (Option.some.inj h).symm⟩
    | false => exact Or.inr ⟨rfl, (Option.some.inj h).symm⟩

theorem onArticleAnswer_cases {s s' : AppState} {a : String}
    (h : onArticleAnswer s a = some s') :
    ∃ item, s.current = some item ∧
      ((a = item.article ∧ s' = { s with
          stats := (recordResult s.stats item.id Phase.article true).1,
          score := s.score + 2, streak := s.streak + 1, done := s.done + 1,
          awaitNext := true })
       ∨ (a ≠ item.article ∧ s' = requeueCurrentAdaptive { s with
          stats := (recordResult s.stats item.id Phase.article false).1,
          score := max 0 (s.score - 1), streak := 0, awaitNext := true })) := by
  unfold onArticleAnswer at h
  cases hcur : s.current with
  | none =>
    rw [hcur] at h
    exact Option.noConfusion h
  | some item =>
    rw [hcur] at h
    refine ⟨item, rfl, ?_⟩
    replace h : (if a = item.article then
        some { s with stats := (recordResult s.stats item.id Phase.article true).1,
                      score := s.score + 2, streak := s.streak + 1,
                      done := s.done + 1, awaitNext := true, current := some item }
      else some (requeueCurrentAdaptive
        { s with stats := (recordResult s.stats item.id Phase.article false).1,
                 score := max 0 (s.score - 1), streak := 0,
                 awaitNext := true, current := some item })) = some s' := h
    by_cases ha : a = item.article
    · rw [if_pos ha] at h
      exact Or.inl ⟨ha, (Option.some.inj h).symm⟩
    · rw [if_neg ha] at h
      exact Or.inr ⟨ha, (Option.some.inj h).symm⟩

theorem nextItem_cases {now : Nat} {s s' : AppState}
    (h : nextItem now s = some s') :
    (s.target ≤ s.done ∧ s' = { s with finished := true, awaitNext := true })
    ∨ (¬ s.target ≤ s.done ∧ ∃ item rest, s.queue = item :: rest ∧
        s' = { s with phase := Phase.meaning, current := some item, queue := rest,
                      stats := (recordSeen s.stats item.id now).1,
                      awaitNext := false }) := by
  unfold nextItem at h
  by_cases hd : s.target ≤ s.done
  · rw [if_pos hd] at h
    exact Or.inl ⟨hd, (Option.some.inj h).symm⟩
  · rw [if_neg hd] at h
    cases hq : s.queue with
    | nil => rw [hq] at h; exact absurd h (by simp)
    | cons item rest =>
      rw [hq] at h
      simp only [Option.some.injEq] at h
      exact Or.inr ⟨hd, item, rest, rfl, h.symm⟩

/-- C6: the completed counter increments exactly on an accepted correct
article-phase answer; the only step that produces a state in which an
article answer is accepted is a correct meaning-phase answer for the same
current item (so a completion is always immediately preceded, with no
intervening miss, by the correct phase A of the same draw); a miss in
either phase requeues the current item without touching the counter; and
every draw restarts at the meaning phase. -/
theorem two_phase_completion_spec (now : Nat) :
    (∀ s e s', Step now s e s' →
      s'.done = s.done ∨
      (s'.done = s.done + 1 ∧ ∃ it, s.current = some it ∧
        e = Ev.answerArticle it.article ∧ s.phase = Phase.article ∧
        s.awaitNext = false))
  ∧ (∀ s c s', Step now s (Ev.answerMeaning c) s' → s'.done = s.done)
  ∧ (∀ s a s' it, Step now s (Ev.answerArticle a) s' → s.current = some it →
      (a = it.article → s'.done = s.done + 1 ∧ s'.queue = s.queue)
      ∧ (a ≠ it.article → s'.done = s.done ∧
          s'.queue = spliceInsert s.queue
            (min s.queue.length (requeueOffset (s'.stats it.id)).toNat) it))
  ∧ (∀ s s' it, Step now s (Ev.answerMeaning false) s' → s.current = some it →
      s'.done = s.done ∧ s'.phase = Phase.meaning ∧
      s'.queue = spliceInsert s.queue
        (min s.queue.length (requeueOffset (s'.stats it.id)).toNat) it)
  ∧ (∀ s e s', Step now s e s' → s'.phase = Phase.article → s'.awaitNext = false →
      e = Ev.answerMeaning true ∧ s'.current = s.current ∧ s.phase = Phase.meaning)
  ∧ (∀ s s', Step now s Ev.next s' → s'.finished = false → s'.phase = Phase.meaning)
  ∧ (∀ (rp rs : Nat → ℚ) vocab st0 s0,
      startRound rp rs now vocab st0 = some s0 → s0.phase = Phase.meaning) := by
  refine ⟨?_, ?_, ?_, ?_, ?_, ?_, ?_⟩
  · intro s e s' hstep
    cases hstep with
    | answerMeaning hph hwait hfin hrun =>
      obtain ⟨item, hcur, hcase⟩ := onMeaningAnswer_cases hrun
      rcases hcase with ⟨-, rfl⟩ | ⟨-, rfl⟩
      · exact Or.inl rfl
      · exact Or.inl (requeueCurrentAdaptive_fields _).1
    | answerArticle hph hwait hfin hrun =>
      obtain ⟨item, hcur, hcase⟩ := onArticleAnswer_cases hrun
      rcases hcase with ⟨ha, rfl⟩ | ⟨ha, rfl⟩
      · exact Or.inr ⟨rfl, item, hcur, by rw [ha], hph, hwait⟩
      · exact Or.inl (requeueCurrentAdaptive_fields _).1
    | next hwait hfin hrun =>
      rcases nextItem_cases hrun with ⟨-, rfl⟩ | ⟨-, item, rest, hq, rfl⟩ <;>
        exact Or.inl rfl
  · intro s c s' hstep
    cases hstep with
    | answerMeaning hph hwait hfin hrun =>
      obtain ⟨item, hcur, hcase⟩ := onMeaningAnswer_cases hrun
      rcases hcase with ⟨-, rfl⟩ | ⟨-, rfl⟩
      · rfl
      · exact (requeueCurrentAdaptive_fields _).1
  · intro s a s' it hstep hcur
    cases hstep with
    | answerArticle hph hwait hfin hrun =>
      obtain ⟨item, hcur', hcase⟩ := onArticleAnswer_cases hrun
      have hit : it = item := by
        rw [hcur] at hcur'
        exact Option.some.inj hcur'
      subst hit
      rcases hcase with ⟨ha, rfl⟩ | ⟨ha, rfl⟩
      · exact ⟨fun _ => ⟨rfl, rfl⟩, fun hne => absurd ha hne⟩
      · refine ⟨fun heq => absurd heq ha, fun _ => ⟨(requeueCurrentAdaptive_fields _).1, ?_⟩⟩
        have hq := requeueCurrentAdaptive_queue
          { s with stats := (recordResult s.stats it.id Phase.article false).1,
                   score := max 0 (s.score - 1), streak := 0, awaitNext := true } it hcur
        rw [hq, (requeueCurrentAdaptive_fields _).2.2.2.2.1]
  · intro s s' it hstep hcur
    cases hstep with
    | answerMeaning hph hwait hfin hrun =>
      obtain ⟨item, hcur', hcase⟩ := onMeaningAnswer_cases hrun
      have hit : it = item := by
        rw [hcur] at hcur'
        exact Option.some.inj hcur'
      subst hit
      rcases hcase with ⟨hcc, -⟩ | ⟨-, rfl⟩
      · exact (Bool.false_ne_true hcc).elim
      · refine ⟨(requeueCurrentAdaptive_fields _).1, ?_, ?_⟩
        · rw [(requeueCurrentAdaptive_fields _).2.2.1]
          exact hph
        · have hq := requeueCurrentAdaptive_queue
            { s with stats := (recordResult s.stats it.id Phase.meaning false).1,
                     score := max 0 (s.score - 1), streak := 0, awaitNext := true } it hcur
          rw [hq, (requeueCurrentAdaptive_fields _).2.2.2.2.1]
  · intro s e s' hstep hph' hwait'
    cases hstep with
    | answerMeaning hph hwait hfin hrun =>
      obtain ⟨item, hcur, hcase⟩ := onMeaningAnswer_cases hrun
      rcases hcase with ⟨hc, rfl⟩ | ⟨hc, rfl⟩
      · exact ⟨by rw [hc], rfl, hph⟩
      · rw [(requeueCurrentAdaptive_fields _).2.2.2.2.2.1] at hwait'
        simp at hwait'
    | answerArticle hph hwait hfin hrun =>
      obtain ⟨item, hcur, hcase⟩ := onArticleAnswer_cases hrun
      rcases hcase with ⟨-, rfl⟩ | ⟨-, rfl⟩
      · simp at hwait'
      · rw [(requeueCurrentAdaptive_fields _).2.2.2.2.2.1] at hwait'
        simp at hwait'
    | next hwait hfin hrun =>
      rcases nextItem_cases hrun with ⟨-, rfl⟩ | ⟨-, item, rest, hq, rfl⟩
      · simp at hwait'
      · exact absurd hph' (show ¬(Phase.meaning = Phase.article) by decide)
  · intro s s' hstep hfin'
    cases hstep with
    | next hwait hfin hrun =>
      rcases nextItem_cases hrun with ⟨-, rfl⟩ | ⟨-, item, rest, hq, rfl⟩
      · simp at hfin'
      · rfl
  · intro rp rs vocab st0 s0 h
    unfold startRound at h
    rcases nextItem_cases h with ⟨hd, rfl⟩ | ⟨-, item, rest, hq, rfl⟩
    · exact absurd hd (show ¬(TARGET_SETS ≤ 0) by decide)
    · rfl

/-- C6 witness: a concrete accepted correct article answer increments the
completed counter by one. -/
theorem two_phase_completion_spec_witness :
    (onArticleAnswer articleState "das").map AppState.done =
      some (articleState.done + 1) := by
  have hs : ∃ s', onArticleAnswer articleState "das" = some s' := ⟨_, rfl⟩
  rcases hs with ⟨s', hs'⟩
  have h := (((two_phase_completion_spec 0).2.2.1 articleState "das" s' wordHaus
    (Step.answerArticle rfl rfl rfl hs') rfl).1 rfl).1
  rw [hs', Option.map_some']
  exact congrArg some h

/-- C10: the score starts a round at 0 and never becomes negative: a
correct answer adds 2, a wrong answer sets `max(0, score - 1)`, and
advancing leaves the score unchanged. -/
theorem score_nonneg_spec (now : Nat) :
    (∀ (rp rs : Nat → ℚ) vocab st0 s0,
      startRound rp rs now vocab st0 = some s0 → s0.score = 0)
  ∧ (∀ s e s', Step now s e s' → 0 ≤ s.score → 0 ≤ s'.score)
  ∧ (∀ s c s', Step now s (Ev.answerMeaning c) s' →
      (c = true → s'.score = s.score + 2) ∧
      (c = false → s'.score = max 0 (s.score - 1)))
  ∧ (∀ s a s' it, Step now s (Ev.answerArticle a) s' → s.current = some it →
      (a = it.article → s'.score = s.score + 2) ∧
      (a ≠ it.article → s'.score = max 0 (s.score - 1)))
  ∧ (∀ s s', Step now s Ev.next s' → s'.score = s.score) := by
  refine ⟨?_, ?_, ?_, ?_, ?_⟩
  · intro rp rs vocab st0 s0 h
    unfold startRound at h
    rcases nextItem_cases h with ⟨hd, rfl⟩ | ⟨-, item, rest, hq, rfl⟩
    · exact absurd hd (show ¬(TARGET_SETS ≤ 0) by decide)
    · rfl
  · intro s e s' hstep hpos
    cases hstep with
    | answerMeaning hph hwait hfin hrun =>
      obtain ⟨item, hcur, hcase⟩ := onMeaningAnswer_cases hrun
      rcases hcase with ⟨-, rfl⟩ | ⟨-, rfl⟩
      · show 0 ≤ s.score + 2
        linarith
      · rw [(requeueCurrentAdaptive_fields _).2.1]
        exact le_max_left 0 _
    | answerArticle hph hwait hfin hrun =>
      obtain ⟨item, hcur, hcase⟩ := onArticleAnswer_cases hrun
      rcases hcase with ⟨-, rfl⟩ | ⟨-, rfl⟩
      · show 0 ≤ s.score + 2
        linarith
      · rw [(requeueCurrentAdaptive_fields _).2.1]
        exact le_max_left 0 _
    | next hwait hfin hrun =>
      rcases nextItem_cases hrun with ⟨-, rfl⟩ | ⟨-, item, rest, hq, rfl⟩ <;>
        exact hpos
  · intro s c s' hstep
    cases hstep with
    | answerMeaning hph hwait hfin hrun =>
      obtain ⟨item, hcur, hcase⟩ := onMeaningAnswer_cases hrun
      rcases hcase with ⟨hc, rfl⟩ | ⟨hc, rfl⟩
      · exact ⟨fun _ => rfl, fun hf => absurd (hc.symm.trans hf) (by decide)⟩
      · subst hc
        refine ⟨fun h => (Bool.false_ne_true h).elim, fun _ => ?_⟩
        exact (requeueCurrentAdaptive_fields _).2.1
  · intro s a s' it hstep hcur
    cases hstep with
    | answerArticle hph hwait hfin hrun =>
      obtain ⟨item, hcur', hcase⟩ := onArticleAnswer_cases hrun
      have hit : it = item := by
        rw [hcur] at hcur'
        exact Option.some.inj hcur'
      subst hit
      rcases hcase with ⟨ha, rfl⟩ | ⟨ha, rfl⟩
      · exact ⟨fun _ => rfl, fun hne => absurd ha hne⟩
      · exact ⟨fun heq => absurd heq ha,
          fun _ => (requeueCurrentAdaptive_fields _).2.1⟩
  · intro s s' hstep
    cases hstep with
    | next hwait hfin hrun =>
      rcases nextItem_cases hrun with ⟨-, rfl⟩ | ⟨-, item, rest, hq, rfl⟩ <;> rfl

/-- C10 witness: a concrete correct meaning answer adds 2 to the score. -/
theorem score_nonneg_spec_witness :
    (onMeaningAnswer sampleState true).map AppState.score =
      some (sampleState.score + 2) := by
  have hs : ∃ s', onMeaningAnswer sampleState true = some s' := ⟨_, rfl⟩
  rcases hs with ⟨s', hs'⟩
  have h := ((score_nonneg_spec 0).2.2.1 sampleState true s'
    (Step.answerMeaning rfl rfl rfl hs')).1 rfl
  rw [hs', Option.map_some']
  exact congrArg some h

theorem pickAux_singleton (rand : Nat → ℚ) (f : Item → ℚ) (calls n : Nat) (p : Item)
    (h : ¬ clampedSum ([p].map f) ≤ 0) :
    pickWeightedUniqueAux rand f calls (n+1) [p] = [p] := by
  rw [pickWeightedUniqueAux, if_neg h]
  simp [pickWeightedUniqueAux_nil]

/-- The state reached after a round over the one-item catalog `[wordHaus]`
draws its only item. -/
def st0 : AppState :=
  { stats := (recordSeen statsEmpty wordHaus.id 0).1, target := TARGET_SETS, done := 0,
    score := 0, streak := 0, phase := Phase.meaning, queue := [],
    current := some wordHaus, awaitNext := false, finished := false }

/-- The run over the one-item catalog: start a round, answer the meaning
phase correctly, answer the article phase correctly. -/
def crashTrace : Option AppState :=
  ((startRound zeroRand zeroRand 0 [wordHaus] statsEmpty).bind
    (fun s => onMeaningAnswer s true)).bind
    (fun s => onArticleAnswer s "das")

/-- C5: with a catalog of 1 item (< TARGET_SETS = 20) the scheduler does
not shorten the round: after the only item is fully completed the state
has `done = 1 < target = 20`, the queue is empty, the round is not
complete, the only available event is the advance click — and advancing
dequeues from the empty queue, which in the source dereferences
`undefined` (modelled `none`). -/
theorem small_pool_crash :
    crashTrace.map AppState.done = some 1
  ∧ crashTrace.map AppState.target = some 20
  ∧ crashTrace.map (fun s => s.queue.length) = some 0
  ∧ crashTrace.map AppState.awaitNext = some true
  ∧ crashTrace.map AppState.finished = some false
  ∧ crashTrace.bind (nextItem 0) = none := by
  have hw : itemWeight 0 (statsEmpty wordHaus.id) = 3 := by
    norm_num [itemWeight, statsEmpty, defaultStat, errorRate, recencyFactor,
      NEW_ITEM_BONUS, ERROR_WEIGHT]
  have hpick : pickWeightedUnique zeroRand [wordHaus] ((TARGET_SETS : Nat) : ℤ)
      (fun it => itemWeight 0 (statsEmpty it.id)) = [wordHaus] := by
    unfold pickWeightedUnique
    rw [show (((TARGET_SETS : Nat) : ℤ)).toNat = 19 + 1 from rfl]
    exact pickAux_singleton zeroRand _ 0 19 wordHaus (by norm_num [clampedSum, hw])
  have hbuild : buildRoundQueue zeroRand zeroRand 0 [wordHaus] statsEmpty =
      [wordHaus] := by
    unfold buildRoundQueue
    rw [hpick]
    rfl
  have hstart : startRound zeroRand zeroRand 0 [wordHaus] statsEmpty = some st0 := by
    unfold startRound
    rw [hbuild]
    rfl
  have hchain : crashTrace = onArticleAnswer
      { st0 with stats := (recordResult st0.stats wordHaus.id Phase.meaning true).1,
                 score := 2, streak := 1, phase := Phase.article } "das" := by
    unfold crashTrace
    rw [hstart]
    rfl
  rw [hchain]
  exact ⟨rfl, rfl, rfl, rfl, rfl, rfl⟩

theorem firstOccKeys_nodup : ∀ l : List String, (firstOccKeys l).Nodup
  | [] => List.nodup_nil
  | x :: xs => by
      rw [firstOccKeys]
      refine List.nodup_cons.mpr ⟨fun hmem => ?_, (firstOccKeys_nodup xs).filter _⟩
      have := (List.mem_filter.mp hmem).2
      simp at this

theorem mem_firstOccKeys : ∀ (l : List String) (x : String),
    x ∈ firstOccKeys l ↔ x ∈ l
  | [], x => by simp [firstOccKeys]
  | a :: t, x => by
      rw [firstOccKeys]
      constructor
      · intro h
        rcases List.mem_cons.mp h with rfl | h
        · exact List.mem_cons_self _ _
        · exact List.mem_cons_of_mem a
            ((mem_firstOccKeys t x).mp (List.mem_filter.mp h).1)
      · intro h
        rcases List.mem_cons.mp h with rfl | h
        · exact List.mem_cons_self _ _
        · by_cases hx : x = a
          · exact hx ▸ List.mem_cons_self _ _
          · exact List.mem_cons_of_mem a
              (List.mem_filter.mpr ⟨(mem_firstOccKeys t x).mpr h, by simp [hx]⟩)

theorem lastWithId_some {l : List Item} {i : String} {x : Item}
    (h : lastWithId l i = some x) : x ∈ l ∧ x.id = i := by
  unfold lastWithId at h
  refine ⟨List.mem_reverse.mp (List.mem_of_find?_eq_some h), ?_⟩
  have := List.find?_some h
  simpa using this

theorem lastWithId_isSome {l : List Item} {i : String} (x : Item)
    (hx : x ∈ l) (hid : x.id = i) : ∃ y, lastWithId l i = some y := by
  unfold lastWithId
  have hmem : x ∈ l.reverse := List.mem_reverse.mpr hx
  have : (l.reverse.find? (fun y => y.id == i)).isSome = true := by
    exact List.find?_isSome.mpr ⟨x, hmem, by simp [hid]⟩
  rcases Option.isSome_iff_exists.mp this with ⟨y, hy⟩
  exact ⟨y, hy⟩

theorem filterMap_lastWithId_map_id (l : List Item) :
    ∀ keys : List String, (∀ i ∈ keys, ∃ x, lastWithId l i = some x) →
      ((keys.filterMap (lastWithId l)).map Item.id) = keys
  | [], _ => rfl
  | i :: ks, h => by
      obtain ⟨x, hx⟩ := h i (List.mem_cons_self _ _)
      rw [List.filterMap_cons, hx, List.map_cons, (lastWithId_some hx).2,
        filterMap_lastWithId_map_id l ks
          (fun j hj => h j (List.mem_cons_of_mem _ hj))]

theorem jsMapValues_map_id (l : List Item) :
    (jsMapValues l).map Item.id = firstOccKeys (l.map Item.id) := by
  apply filterMap_lastWithId_map_id
  intro i hi
  have : i ∈ l.map Item.id := (mem_firstOccKeys _ i).mp hi
  rcases List.mem_map.mp this with ⟨x, hx, hid⟩
  exact lastWithId_isSome x hx hid

theorem jsMapValues_nodup (l : List Item) : ((jsMapValues l).map Item.id).Nodup := by
  rw [jsMapValues_map_id]
  exact firstOccKeys_nodup _

theorem jsMapValues_sub {l : List Item} {x : Item} (h : x ∈ jsMapValues l) : x ∈ l := by
  unfold jsMapValues at h
  rcases List.mem_filterMap.mp h with ⟨i, _, hfind⟩
  exact (lastWithId_some hfind).1

theorem jsMapValues_ne_nil {l : List Item} (h : l ≠ []) : jsMapValues l ≠ [] := by
  intro hnil
  have hmapid := jsMapValues_map_id l
  rw [hnil] at hmapid
  cases l with
  | nil => exact h rfl
  | cons a t =>
    have : a.id ∈ firstOccKeys ((a :: t).map Item.id) :=
      (mem_firstOccKeys _ _).mpr (by simp)
    rw [← hmapid] at this
    simp at this

theorem countP_or_le (p q : Item → Bool) :
    ∀ l : List Item, l.countP (fun x => p x || q x) ≤ l.countP p + l.countP q
  | [] => le_refl 0
  | a :: t => by
      have ih := countP_or_le p q t
      by_cases hp : p a = true <;> by_cases hq : q a = true <;>
        simp [List.countP_cons, hp, hq] <;> omega

theorem countP_id_le_one {pool : List Item} (hids : (pool.map Item.id).Nodup)
    (s : String) : pool.countP (fun x => x.id == s) ≤ 1 := by
  have h1 : (pool.map Item.id).count s ≤ 1 :=
    List.nodup_iff_count_le_one.mp hids s
  rw [List.count, List.countP_map] at h1
  exact le_trans (le_of_eq (by rfl)) h1

theorem mem_sameTagPool {pool : List Item} {item x : Item} :
    x ∈ sameTagPool pool item ↔
      x ∈ pool ∧ x.id ≠ item.id ∧ intersectTags x.tags item.tags = true := by
  simp [sameTagPool, List.mem_filter, and_assoc]

theorem candidatesFor_eq (pool : List Item) (item : Item) :
    candidatesFor pool item =
      if 10 ≤ (sameTagPool pool item).length then sameTagPool pool item
      else sameTagPool pool item ++ pool.filter (fun x => decide (x.id ≠ item.id)) := rfl

theorem preferredFor_eq (pool : List Item) (item : Item) :
    preferredFor pool item =
      if 2 ≤ ((candidatesFor pool item).filter
          (fun x => decide (x.article ≠ item.article))).length
      then (candidatesFor pool item).filter (fun x => decide (x.article ≠ item.article))
      else candidatesFor pool item := rfl

theorem mem_candidatesFor {pool : List Item} {item x : Item}
    (h : x ∈ candidatesFor pool item) : x ∈ pool ∧ x.id ≠ item.id := by
  rw [candidatesFor_eq] at h
  split at h
  · have h1 := mem_sameTagPool.mp h
    exact ⟨h1.1, h1.2.1⟩
  · rcases List.mem_append.mp h with h1 | h1
    · have h2 := mem_sameTagPool.mp h1
      exact ⟨h2.1, h2.2.1⟩
    · have h2 := List.mem_filter.mp h1
      exact ⟨h2.1, by simpa using h2.2⟩

theorem mem_candidatesFor_fallback {pool : List Item} {item x : Item}
    (hlt : (sameTagPool pool item).length < 10) :
    x ∈ candidatesFor pool item ↔ x ∈ pool ∧ x.id ≠ item.id := by
  rw [candidatesFor_eq, if_neg (by omega)]
  constructor
  · intro h
    rcases List.mem_append.mp h with h1 | h1
    · have h2 := mem_sameTagPool.mp h1
      exact ⟨h2.1, h2.2.1⟩
    · have h2 := List.mem_filter.mp h1
      exact ⟨h2.1, by simpa using h2.2⟩
  · intro h
    exact List.mem_append.mpr
      (Or.inr (List.mem_filter.mpr ⟨h.1, by simpa using h.2⟩))

theorem mem_preferredFor {pool : List Item} {item x : Item}
    (h : x ∈ preferredFor pool item) : x ∈ candidatesFor pool item := by
  rw [preferredFor_eq] at h
  split at h
  · exact (List.mem_filter.mp h).1
  · exact h

theorem length_filter_ne {pool : List Item} {item : Item}
    (hids : (pool.map Item.id).Nodup) (hmem : item ∈ pool) :
    (pool.filter (fun x => decide (x.id ≠ item.id))).length = pool.length - 1 := by
  have hcount : pool.countP (fun x => x.id == item.id) = 1 :=
    le_antisymm (countP_id_le_one hids _)
      (List.countP_pos.mpr ⟨item, hmem, by simp⟩)
  have hsplit := List.length_eq_countP_add_countP (fun x => x.id == item.id) pool
  have hfl : (pool.filter (fun x => decide (x.id ≠ item.id))).length =
      pool.countP (fun x => decide (x.id ≠ item.id)) :=
    (List.countP_eq_length_filter _ _).symm
  have hcongr : pool.countP (fun x => decide (x.id ≠ item.id)) =
      pool.countP (fun a => decide (¬(a.id == item.id) = true)) :=
    List.countP_congr (by intro x _; simp)
  rw [hfl, hcongr]
  omega

theorem candidatesFor_length {pool : List Item} {item : Item}
    (hids : (pool.map Item.id).Nodup) (hmem : item ∈ pool)
    (hsize : 3 ≤ pool.length) : 2 ≤ (candidatesFor pool item).length := by
  rw [candidatesFor_eq]
  split
  · omega
  · rw [List.length_append, length_filter_ne hids hmem]
    omega

theorem preferredFor_length {pool : List Item} {item : Item}
    (hids : (pool.map Item.id).Nodup) (hmem : item ∈ pool)
    (hsize : 3 ≤ pool.length) : 2 ≤ (preferredFor pool item).length := by
  rw [preferredFor_eq]
  split
  · omega
  · exact candidatesFor_length hids hmem hsize

theorem countP_any_le {pool : List Item} (hids : (pool.map Item.id).Nodup) :
    ∀ d1 : List Item,
      pool.countP (fun x => d1.any (fun d => d.id == x.id)) ≤ d1.length
  | [] => by simp
  | d :: ds => by
      have h1 := countP_or_le (fun x => d.id == x.id)
        (fun x => ds.any (fun d' => d'.id == x.id)) pool
      have h2 : pool.countP (fun x => d.id == x.id) ≤ 1 := by
        have hcg : pool.countP (fun x => d.id == x.id) =
            pool.countP (fun x => x.id == d.id) :=
          List.countP_congr (fun x _ => by
            simp only [beq_iff_eq]
            exact eq_comm)
        rw [hcg]
        exact countP_id_le_one hids d.id
      have h3 := countP_any_le hids ds
      have h4 : pool.countP (fun x => (d :: ds).any fun d' => d'.id == x.id) =
          pool.countP (fun x => (d.id == x.id) || ds.any fun d' => d'.id == x.id) := by
        simp [List.any_cons]
      rw [h4, List.length_cons]
      omega

theorem topup_spec (r2 : Nat → ℚ) (pool : List Item) (item : Item) (d1 : List Item)
    (hids : (pool.map Item.id).Nodup) (hmem : item ∈ pool) (hsize : 3 ≤ pool.length)
    (hd1nodup : (d1.map Item.id).Nodup)
    (hd1props : ∀ x ∈ d1, x ∈ pool ∧ x.id ≠ item.id)
    (hlen : d1.length ≤ 2) :
    ((d1 ++ (shuffle r2 (pool.filter (fun x => decide (x.id ≠ item.id) &&
        !(d1.any (fun d => d.id == x.id))))).take (2 - d1.length)).length = 2)
  ∧ (((d1 ++ (shuffle r2 (pool.filter (fun x => decide (x.id ≠ item.id) &&
        !(d1.any (fun d => d.id == x.id))))).take (2 - d1.length)).map Item.id).Nodup)
  ∧ (∀ x ∈ d1 ++ (shuffle r2 (pool.filter (fun x => decide (x.id ≠ item.id) &&
        !(d1.any (fun d => d.id == x.id))))).take (2 - d1.length),
      x ∈ pool ∧ x.id ≠ item.id) := by
  have hrest_mem : ∀ x, x ∈ pool.filter (fun x => decide (x.id ≠ item.id) &&
      !(d1.any (fun d => d.id == x.id))) →
      x ∈ pool ∧ x.id ≠ item.id ∧ ∀ d ∈ d1, d.id ≠ x.id := by
    intro x hx
    have h1 := List.mem_filter.mp hx
    have h2 := h1.2
    simp only [Bool.and_eq_true, decide_eq_true_eq, Bool.not_eq_true',
      List.any_eq_false, beq_iff_eq] at h2
    exact ⟨h1.1, h2.1, h2.2⟩
  have hrest_len : 2 - d1.length ≤ (pool.filter (fun x => decide (x.id ≠ item.id) &&
      !(d1.any (fun d => d.id == x.id)))).length := by
    have hfl : (pool.filter (fun x => decide (x.id ≠ item.id) &&
        !(d1.any (fun d => d.id == x.id)))).length =
        pool.countP (fun x => decide (x.id ≠ item.id) &&
          !(d1.any (fun d => d.id == x.id))) :=
      (List.countP_eq_length_filter _ _).symm
    have hsplit := List.length_eq_countP_add_countP
      (fun x => decide (x.id ≠ item.id) && !(d1.any (fun d => d.id == x.id))) pool
    have hneg : pool.countP (fun a => decide (¬((decide (a.id ≠ item.id) &&
        !(d1.any (fun d => d.id == a.id))) = true))) =
        pool.countP (fun x => (x.id == item.id) || d1.any (fun d => d.id == x.id)) := by
      apply List.countP_congr
      intro x _
      simp only [Bool.and_eq_true, decide_eq_true_eq, Bool.not_eq_true',
        Bool.or_eq_true, beq_iff_eq]
      constructor
      · intro h
        by_cases hid : x.id = item.id
        · exact Or.inl hid
        · right
          cases hb : (d1.any fun d => d.id == x.id) with
          | true => rfl
          | false => exact absurd ⟨hid, hb⟩ h
      · intro h
        rcases h with h | h
        · exact fun hc => hc.1 h
        · exact fun hc => by rw [hc.2] at h; exact Bool.false_ne_true h
    have hor := countP_or_le (fun x => x.id == item.id)
      (fun x => d1.any (fun d => d.id == x.id)) pool
    have hone := countP_id_le_one hids item.id
    have hany := countP_any_le hids d1
    rw [hfl]
    omega
  have hrest_nodup : ((pool.filter (fun x => decide (x.id ≠ item.id) &&
      !(d1.any (fun d => d.id == x.id)))).map Item.id).Nodup :=
    List.Nodup.sublist (List.Sublist.map Item.id (List.filter_sublist pool)) hids
  have hextra_len : ((shuffle r2 (pool.filter (fun x => decide (x.id ≠ item.id) &&
      !(d1.any (fun d => d.id == x.id))))).take (2 - d1.length)).length =
      2 - d1.length := by
    rw [List.length_take, (shuffle_perm r2 _).length_eq]
    omega
  have hextra_mem : ∀ x ∈ (shuffle r2 (pool.filter (fun x => decide (x.id ≠ item.id) &&
      !(d1.any (fun d => d.id == x.id))))).take (2 - d1.length),
      x ∈ pool.filter (fun x => decide (x.id ≠ item.id) &&
        !(d1.any (fun d => d.id == x.id))) := by
    intro x hx
    exact ((shuffle_perm r2 _).mem_iff).mp (List.take_subset _ _ hx)
  have hextra_nodup : (((shuffle r2 (pool.filter (fun x => decide (x.id ≠ item.id) &&
      !(d1.any (fun d => d.id == x.id))))).take (2 - d1.length)).map Item.id).Nodup := by
    apply List.Nodup.sublist (List.Sublist.map Item.id (List.take_sublist _ _))
    exact (((shuffle_perm r2 _).map Item.id).nodup_iff).mpr hrest_nodup
  refine ⟨?_, ?_, ?_⟩
  · rw [List.length_append, hextra_len]
    omega
  · rw [List.map_append]
    refine List.Nodup.append hd1nodup hextra_nodup ?_
    intro a ha1 ha2
    rcases List.mem_map.mp ha1 with ⟨d, hd, hda⟩
    rcases List.mem_map.mp ha2 with ⟨x, hx, hxa⟩
    have := (hrest_mem x (hextra_mem x hx)).2.2 d hd
    exact this (hda.trans hxa.symm)
  · intro x hx
    rcases List.mem_append.mp hx with h | h
    · exact hd1props x h
    · have := hrest_mem x (hextra_mem x h)
      exact ⟨this.1, this.2.1⟩

theorem pickDistractors_eq (r1 r2 : Nat → ℚ) (pool : List Item) (item : Item) :
    pickDistractors r1 r2 pool item =
      if ((jsMapValues ((shuffle r1 (preferredFor pool item)).take 2)).take 2).length < 2
      then (jsMapValues ((shuffle r1 (preferredFor pool item)).take 2)).take 2 ++
        (shuffle r2 (pool.filter (fun x => decide (x.id ≠ item.id) &&
          !(((jsMapValues ((shuffle r1 (preferredFor pool item)).take 2)).take 2).any
            (fun d => d.id == x.id))))).take
          (2 - ((jsMapValues ((shuffle r1 (preferredFor pool item)).take 2)).take 2).length)
      else (jsMapValues ((shuffle r1 (preferredFor pool item)).take 2)).take 2 := rfl

theorem pickDistractors_spec (r1 r2 : Nat → ℚ) (pool : List Item) (item : Item)
    (hids : (pool.map Item.id).Nodup) (hmem : item ∈ pool) (hsize : 3 ≤ pool.length) :
    (pickDistractors r1 r2 pool item).length = 2
  ∧ ((pickDistractors r1 r2 pool item).map Item.id).Nodup
  ∧ (∀ d ∈ pickDistractors r1 r2 pool item, d ∈ pool ∧ d.id ≠ item.id) := by
  have hd1nodup : (((jsMapValues ((shuffle r1 (preferredFor pool item)).take 2)).take 2).map
      Item.id).Nodup :=
    List.Nodup.sublist (List.Sublist.map Item.id (List.take_sublist _ _))
      (jsMapValues_nodup _)
  have hd1props : ∀ x ∈ (jsMapValues ((shuffle r1 (preferredFor pool item)).take 2)).take 2,
      x ∈ pool ∧ x.id ≠ item.id := by
    intro x hx
    have h1 : x ∈ (shuffle r1 (preferredFor pool item)).take 2 :=
      jsMapValues_sub (List.take_subset _ _ hx)
    have h2 : x ∈ preferredFor pool item :=
      ((shuffle_perm r1 _).mem_iff).mp (List.take_subset _ _ h1)
    exact mem_candidatesFor (mem_preferredFor h2)
  have hd1le : ((jsMapValues ((shuffle r1 (preferredFor pool item)).take 2)).take 2).length
      ≤ 2 := List.length_take_le _ _
  rw [pickDistractors_eq]
  split
  · exact topup_spec r2 pool item _ hids hmem hsize hd1nodup hd1props hd1le
  · rename_i hge
    exact ⟨by omega, hd1nodup, hd1props⟩

theorem buildMeaningChoices_eq (r1 r2 r3 : Nat → ℚ) (pool : List Item) (item : Item) :
    buildMeaningChoices r1 r2 r3 pool item =
      (shuffle r3 (item :: pickDistractors r1 r2 pool item)).map (fun x =>
        { id := x.id, display := x.display, isCorrect := x.id == item.id }) := rfl

/-- C8: the claimed structure of the phase-A choice set for a drawn item
over a catalog with at least 3 distinct-id items: same-tag candidate
filtering with full-catalog fallback below 10; different-article
preference when at least 2 such candidates exist; exactly 2 distractors,
pairwise-distinct and distinct from the item, topped up from the rest of
the catalog when needed; and a final presentation that is a permutation
of the correct item with its 2 distractors in which the correct item
appears exactly once. -/
theorem meaning_choices_spec (r1 r2 r3 : Nat → ℚ) (pool : List Item) (item : Item)
    (hids : (pool.map Item.id).Nodup) (hmem : item ∈ pool) (hsize : 3 ≤ pool.length) :
    (∀ x, x ∈ sameTagPool pool item ↔
      x ∈ pool ∧ x.id ≠ item.id ∧ intersectTags x.tags item.tags = true)
  ∧ (10 ≤ (sameTagPool pool item).length →
      candidatesFor pool item = sameTagPool pool item)
  ∧ ((sameTagPool pool item).length < 10 →
      ∀ x, x ∈ candidatesFor pool item ↔ x ∈ pool ∧ x.id ≠ item.id)
  ∧ (2 ≤ ((candidatesFor pool item).filter
        (fun x => decide (x.article ≠ item.article))).length →
      preferredFor pool item = (candidatesFor pool item).filter
        (fun x => decide (x.article ≠ item.article)))
  ∧ (((candidatesFor pool item).filter
        (fun x => decide (x.article ≠ item.article))).length < 2 →
      preferredFor pool item = candidatesFor pool item)
  ∧ (pickDistractors r1 r2 pool item).length = 2
  ∧ ((pickDistractors r1 r2 pool item).map Item.id).Nodup
  ∧ (∀ d ∈ pickDistractors r1 r2 pool item, d ∈ pool ∧ d.id ≠ item.id)
  ∧ (buildMeaningChoices r1 r2 r3 pool item).length = 3
  ∧ List.Perm ((buildMeaningChoices r1 r2 r3 pool item).map Choice.id)
      ((item :: pickDistractors r1 r2 pool item).map Item.id)
  ∧ (buildMeaningChoices r1 r2 r3 pool item).countP (fun c => c.isCorrect) = 1
  ∧ (∀ c ∈ buildMeaningChoices r1 r2 r3 pool item,
      c.isCorrect = true ↔ c.id = item.id) := by
  obtain ⟨hdlen, hdnodup, hdprops⟩ := pickDistractors_spec r1 r2 pool item hids hmem hsize
  refine ⟨fun x => mem_sameTagPool, ?_, fun hlt x => mem_candidatesFor_fallback hlt, ?_, ?_,
    hdlen, hdnodup, hdprops, ?_, ?_, ?_, ?_⟩
  · intro h10
    rw [candidatesFor_eq, if_pos h10]
  · intro h2
    rw [preferredFor_eq, if_pos h2]
  · intro h2
    rw [preferredFor_eq, if_neg (by omega)]
  · rw [buildMeaningChoices_eq, List.length_map, (shuffle_perm r3 _).length_eq,
      List.length_cons, hdlen]
  · rw [buildMeaningChoices_eq, List.map_map]
    exact (shuffle_perm r3 _).map Item.id
  · rw [buildMeaningChoices_eq, List.countP_map,
      (shuffle_perm r3 (item :: pickDistractors r1 r2 pool item)).countP_eq,
      List.countP_cons]
    have hzero : (pickDistractors r1 r2 pool item).countP
        (fun x => ((fun c : Choice => c.isCorrect) ∘ (fun x : Item =>
          ({ id := x.id, display := x.display, isCorrect := x.id == item.id } : Choice))) x)
        = 0 := by
      rw [List.countP_eq_zero]
      intro d hd
      simp only [Function.comp]
      have := (hdprops d hd).2
      simp [this]
    rw [hzero]
    simp
  · intro c hc
    rw [buildMeaningChoices_eq] at hc
    rcases List.mem_map.mp hc with ⟨x, _, rfl⟩
    simp

/-- C8 witness: over the concrete three-item catalog, the drawn item gets
exactly 2 distractors and exactly one correct choice. -/
theorem meaning_choices_spec_witness :
    (([wordHaus, wordBaum, wordTuer].map Item.id).Nodup
      ∧ wordHaus ∈ [wordHaus, wordBaum, wordTuer]
      ∧ 3 ≤ ([wordHaus, wordBaum, wordTuer] : List Item).length)
  ∧ (pickDistractors zeroRand zeroRand [wordHaus, wordBaum, wordTuer] wordHaus).length = 2
  ∧ (buildMeaningChoices zeroRand zeroRand zeroRand [wordHaus, wordBaum, wordTuer]
      wordHaus).countP (fun c => c.isCorrect) = 1 :=
  ⟨⟨by decide, by decide, by decide⟩,
   (meaning_choices_spec zeroRand zeroRand zeroRand [wordHaus, wordBaum, wordTuer]
     wordHaus (by decide) (by decide) (by decide)).2.2.2.2.2.1,
   (meaning_choices_spec zeroRand zeroRand zeroRand [wordHaus, wordBaum, wordTuer]
     wordHaus (by decide) (by decide) (by decide)).2.2.2.2.2.2.2.2.2.2.1⟩

end App
